import Mathlib

/-!
Verification of the predictive-cache library: a shallow embedding of the
LRU core (`LRUCache.hpp`), the Count-Min sketch (`CountMinSketch.hpp`),
the TinyLFU-admitting LRU (`TinyLFUAdmittingLRU.hpp`), the sharded
compositions (`ShardedLRU.hpp`, `ShardedWTinyLFU.hpp`), the Markov
predictor (`MarkovPredictor.hpp`) and the predictive wrapper
(`PredictiveShardedCache.hpp`), together with theorems on the embedded
operations. Machine integers are modelled as `Nat` with explicit
reduction modulo `2^32` / `2^64` where the C++ arithmetic can overflow;
`std::hash<Key>` is modelled as an arbitrary function `hash : Key → Nat`
(reduced modulo `2^64`, the width of `size_t`).
-/

set_option linter.unusedSectionVars false
set_option linter.unusedVariables false

namespace PredCache

/-! ### LRU core (`LRUCache.hpp`)

The C++ class keeps a doubly linked list `items_` of (key, value) pairs,
most recently used at the front, and a hash map `map_` from key to list
node. The map's content is exactly the set of keys on the list, so the
state is modelled by the list alone (front = MRU); `map_.size()` is the
list length and `map_.find` is a key search on the list. -/

structure LRU (Key Value : Type) where
  items : List (Key × Value)
  capacity : Nat

/-- `LRUCache::LRUCache(capacity)` — no validation is performed. -/
def mkLRU (Key Value : Type) (capacity : Nat) : LRU Key Value :=
  ⟨[], capacity⟩

variable {Key Value : Type} [DecidableEq Key]

/-- `LRUCache::contains` (`map_.count(key) != 0`). -/
def LRU.contains (s : LRU Key Value) (k : Key) : Bool :=
  s.items.any (fun p => p.1 == k)

/-- `LRUCache::size` (`map_.size()`). -/
def LRU.size (s : LRU Key Value) : Nat :=
  s.items.length

/-- `LRUCache::get`: on a hit, splice the node to the front and return
its value; on a miss return `nullopt`. -/
def LRU.get (s : LRU Key Value) (k : Key) : Option Value × LRU Key Value :=
  match s.items.find? (fun p => p.1 == k) with
  | none => (none, s)
  | some e => (some e.2, ⟨e :: s.items.eraseP (fun p => p.1 == k), s.capacity⟩)

/-- `LRUCache::put`: if the key is resident, overwrite the value and
splice to the front; otherwise emplace at the front and, if the map now
exceeds capacity, evict the back (LRU) node. -/
def LRU.put (s : LRU Key Value) (k : Key) (v : Value) : LRU Key Value :=
  if s.contains k then
    ⟨(k, v) :: s.items.eraseP (fun p => p.1 == k), s.capacity⟩
  else
    let items' := (k, v) :: s.items
    if s.capacity < items'.length then ⟨items'.dropLast, s.capacity⟩
    else ⟨items', s.capacity⟩

/-- `LRUCache::erase`: remove the node if present, reporting whether a
removal happened. -/
def LRU.erase (s : LRU Key Value) (k : Key) : Bool × LRU Key Value :=
  if s.contains k then (true, ⟨s.items.eraseP (fun p => p.1 == k), s.capacity⟩)
  else (false, s)

/-- `LRUCache::peek_lru_key`: the key of the back (LRU) node, if any. -/
def LRU.peekLruKey (s : LRU Key Value) : Option Key :=
  s.items.getLast?.map (·.1)

/-- The representation invariant the C++ map/list pair maintains: each
key appears on the recency list at most once. -/
def LRU.wf (s : LRU Key Value) : Prop :=
  (s.items.map (·.1)).Nodup

/-! Operation sequences on a single LRU core, for the reachable-state
claims. -/

inductive CacheOp (Key Value : Type) where
  | get (k : Key)
  | put (k : Key) (v : Value)
  | erase (k : Key)

def LRU.step (s : LRU Key Value) : CacheOp Key Value → LRU Key Value
  | .get k => (s.get k).2
  | .put k v => s.put k v
  | .erase k => (s.erase k).2

/-- The state of an `LRUCache` constructed with capacity `C` after a
sequence of operations. -/
def runLRU (C : Nat) (ops : List (CacheOp Key Value)) : LRU Key Value :=
  ops.foldl LRU.step (mkLRU Key Value C)

/-! ### Count-Min sketch (`CountMinSketch.hpp`)

`rows_` is a `depth × width` array of `uint32_t` counters; it is
modelled as a total function `Nat → Nat → Nat` (row → column → counter),
zero outside the allocated range, which agrees with the vector on every
index the C++ code ever touches. -/

def UINT32MAX : Nat := 4294967295

def cmsSeeds : List Nat :=
  [0x9e3779b185ebca87, 0xc2b2ae3d27d4eb4f,
   0x165667b19e3779f9, 0xd6e8feb86659fd93,
   0x94d049bb133111eb, 0x2545f4914f6cdd1d,
   0x60642e2a34326f15, 0x9e3779b97f4a7c15]

structure CMS where
  width : Nat
  depth : Nat
  rows : Nat → Nat → Nat

/-- `CountMinSketch::CountMinSketch(width, depth)` — all counters zero;
no validation of the width is performed. -/
def mkCMS (width depth : Nat) : CMS :=
  ⟨width, depth, fun _ _ => 0⟩

/-- The hash mixing in `CountMinSketch::index`:
`h ^= seeds[i & 7] + 0x9e3779b97f4a7c15 + (h << 6) + (h >> 2)` in
`uint64_t` arithmetic, then `h & (width - 1)`. -/
def CMS.index (s : CMS) (hash : Key → Nat) (k : Key) (i : Nat) : Nat :=
  let h := hash k % 2 ^ 64
  let h' := h ^^^ ((cmsSeeds.getD (i % 8) 0 + 0x9e3779b97f4a7c15 + h * 2 ^ 6 + h / 2 ^ 2) % 2 ^ 64)
  Nat.land h' (s.width - 1)

/-- The saturating increment in `CountMinSketch::add`:
`if (c != UINT32_MAX) ++c`. -/
def satIncr (c : Nat) : Nat :=
  if c = UINT32MAX then c else c + 1

/-- `CountMinSketch::add`: for every row `i < depth`, saturating-increment
the counter at column `index(k, i)`. -/
def CMS.add (s : CMS) (hash : Key → Nat) (k : Key) : CMS :=
  { s with rows := fun i j =>
      if i < s.depth ∧ j = s.index hash k i then satIncr (s.rows i j) else s.rows i j }

/-- `CountMinSketch::estimate`: the minimum selected counter across the
rows, starting from `UINT32_MAX`; a final minimum still equal to
`UINT32_MAX` is reported as `0`. -/
def CMS.estimate (s : CMS) (hash : Key → Nat) (k : Key) : Nat :=
  let m := (List.range s.depth).foldl (fun m i => min m (s.rows i (s.index hash k i))) UINT32MAX
  if m = UINT32MAX then 0 else m

/-- `CountMinSketch::decay_half`: right-shift every counter by one. -/
def CMS.decayHalf (s : CMS) : CMS :=
  { s with rows := fun i j => s.rows i j / 2 }

/-- The sketch after a sequence of `add` calls on a fresh sketch. -/
def runCMS (width depth : Nat) (hash : Key → Nat) (adds : List Key) : CMS :=
  adds.foldl (fun s k => s.add hash k) (mkCMS width depth)

/-! ### TinyLFU-admitting LRU (`TinyLFUAdmittingLRU.hpp`) -/

structure TLFU (Key Value : Type) where
  lru : LRU Key Value
  cms : CMS

/-- `TinyLFUAdmittingLRU::TinyLFUAdmittingLRU(capacity, cms_width, cms_depth)`. -/
def mkTLFU (Key Value : Type) (capacity cmsWidth cmsDepth : Nat) : TLFU Key Value :=
  ⟨mkLRU Key Value capacity, mkCMS cmsWidth cmsDepth⟩

/-- `TinyLFUAdmittingLRU::get`: record the access in the sketch, then
delegate to the LRU core. -/
def TLFU.get (s : TLFU Key Value) (hash : Key → Nat) (k : Key) :
    Option Value × TLFU Key Value :=
  let cms' := s.cms.add hash k
  let r := s.lru.get k
  (r.1, ⟨r.2, cms'⟩)

/-- `TinyLFUAdmittingLRU::put`: record the access in the sketch; update in
place if resident; insert if below capacity or if there is no victim;
otherwise admit iff `estimate(key) >= estimate(victim)`, erasing the
victim on admission and leaving the core untouched on rejection. -/
def TLFU.put (s : TLFU Key Value) (hash : Key → Nat) (k : Key) (v : Value) :
    TLFU Key Value :=
  let cms' := s.cms.add hash k
  if s.lru.contains k then ⟨s.lru.put k v, cms'⟩
  else if s.lru.size < s.lru.capacity then ⟨s.lru.put k v, cms'⟩
  else
    match s.lru.peekLruKey with
    | none => ⟨s.lru.put k v, cms'⟩
    | some victim =>
        if cms'.estimate hash victim ≤ cms'.estimate hash k then
          ⟨((s.lru.erase victim).2).put k v, cms'⟩
        else ⟨s.lru, cms'⟩

/-- `TinyLFUAdmittingLRU::erase` delegates to the LRU core. -/
def TLFU.erase (s : TLFU Key Value) (k : Key) : Bool × TLFU Key Value :=
  let r := s.lru.erase k
  (r.1, ⟨r.2, s.cms⟩)

def TLFU.contains (s : TLFU Key Value) (k : Key) : Bool := s.lru.contains k

def TLFU.size (s : TLFU Key Value) : Nat := s.lru.size

/-! ### Sharded compositions (`ShardedLRU.hpp`, `ShardedWTinyLFU.hpp`)

Both constructors throw `std::invalid_argument` when the shard count is
zero; modelled with `Except`. The per-shard capacity is
`capacity / shards`, with the remainder added to the last shard. -/

/-- `ShardedLRU::ShardedLRU(capacity, num_shards)`. -/
def mkShardedLRU (Key Value : Type) (capacity numShards : Nat) :
    Except String (List (LRU Key Value)) :=
  if numShards = 0 then .error "num_shards must be > 0"
  else .ok ((List.range numShards).map (fun i =>
    mkLRU Key Value (capacity / numShards +
      if i = numShards - 1 then capacity % numShards else 0)))

structure SWT (Key Value : Type) where
  shards : List (TLFU Key Value)

/-- `ShardedWTinyLFU::ShardedWTinyLFU(capacity, shards, cms_width, cms_depth)`. -/
def mkSWT (Key Value : Type) (capacity shards cmsWidth cmsDepth : Nat) :
    Except String (SWT Key Value) :=
  if shards = 0 then .error "shards must be > 0"
  else .ok ⟨(List.range shards).map (fun i =>
    mkTLFU Key Value (capacity / shards +
      if i = shards - 1 then capacity % shards else 0) cmsWidth cmsDepth)⟩

/-- A placeholder shard used only as the `getD` default; every state the
C++ code builds has the indexed shard present. -/
def dfltTLFU (Key Value : Type) : TLFU Key Value := mkTLFU Key Value 0 0 0

/-- `ShardedWTinyLFU::idx`: `hasher_(key) % shards_.size()`. -/
def SWT.idx (s : SWT Key Value) (hash : Key → Nat) (k : Key) : Nat :=
  hash k % s.shards.length

/-- `ShardedWTinyLFU::get` delegates to the key's shard. -/
def SWT.get (s : SWT Key Value) (hash : Key → Nat) (k : Key) :
    Option Value × SWT Key Value :=
  let i := s.idx hash k
  let r := (s.shards.getD i (dfltTLFU Key Value)).get hash k
  (r.1, ⟨s.shards.set i r.2⟩)

/-- `ShardedWTinyLFU::put` delegates to the key's shard. -/
def SWT.put (s : SWT Key Value) (hash : Key → Nat) (k : Key) (v : Value) :
    SWT Key Value :=
  let i := s.idx hash k
  ⟨s.shards.set i ((s.shards.getD i (dfltTLFU Key Value)).put hash k v)⟩

/-! ### Markov predictor (`MarkovPredictor.hpp`)

`trans_ : unordered_map<Key, unordered_map<Key, uint32_t>>` and
`totals_ : unordered_map<Key, uint32_t>` are modelled as association
lists; `uint32_t` increments reduce modulo `2^32` (the C++ `++` on an
unsigned counter wraps). -/

def M32 : Nat := 2 ^ 32

/-- `unordered_map` lookup (`find`). -/
def alGet (l : List (Key × α)) (k : Key) : Option α :=
  (l.find? (fun p => p.1 == k)).map (·.2)

/-- `unordered_map` insert-or-assign (`m[k] = v`). -/
def alSet : List (Key × α) → Key → α → List (Key × α)
  | [], k, v => [(k, v)]
  | p :: ps, k, v => if p.1 == k then (k, v) :: ps else p :: alSet ps k v

structure Markov (Key : Type) where
  trans : List (Key × List (Key × Nat))
  totals : List (Key × Nat)

def mkMarkov (Key : Type) : Markov Key := ⟨[], []⟩

/-- `MarkovPredictor::observe`: `trans_[prev][cur]` and `totals_[prev]`
are default-inserted when absent and incremented (wrapping `uint32_t`). -/
def Markov.observe (m : Markov Key) (prev cur : Key) : Markov Key :=
  let inner := (alGet m.trans prev).getD []
  let cnt := (alGet inner cur).getD 0
  ⟨alSet m.trans prev (alSet inner cur ((cnt + 1) % M32)),
   alSet m.totals prev (((alGet m.totals prev).getD 0 + 1) % M32)⟩

/-- Insertion into a list sorted by strictly descending probability, the
order `std::sort` establishes with the comparator `a.second > b.second`
(tie order is unspecified in C++; this model keeps earlier ties first). -/
def insDesc (x : Key × ℚ) : List (Key × ℚ) → List (Key × ℚ)
  | [] => [x]
  | y :: ys => if y.2 < x.2 then x :: y :: ys else y :: insDesc x ys

def sortDesc (l : List (Key × ℚ)) : List (Key × ℚ) :=
  l.foldr insDesc []

/-- `MarkovPredictor::topk_next`: empty if `cur` has no outgoing
transitions or no (nonzero) total; otherwise keep successors with
`count >= min_count` and probability `count / total >= min_prob`, sort by
descending probability and return the first `top_k` keys. The C++
probabilities are `double`; they are exact rationals here. -/
def Markov.topkNext (m : Markov Key) (cur : Key) (topK : Nat)
    (minCount : Nat) (minProb : ℚ) : List Key :=
  match alGet m.trans cur with
  | none => []
  | some inner =>
    match alGet m.totals cur with
    | none => []
    | some total =>
      if total = 0 then []
      else
        let cand := inner.filterMap (fun p =>
          if minCount ≤ p.2 ∧ minProb ≤ (p.2 : ℚ) / (total : ℚ)
          then some (p.1, (p.2 : ℚ) / (total : ℚ)) else none)
        ((sortDesc cand).take topK).map (·.1)

/-- Halve the counters of one `unordered_map<Key, uint32_t>`, erasing
entries whose counter becomes zero (the loop bodies in
`MarkovPredictor::decay_half`). -/
def halvePrune (l : List (Key × Nat)) : List (Key × Nat) :=
  l.filterMap (fun p => if p.2 / 2 = 0 then none else some (p.1, p.2 / 2))

/-- `MarkovPredictor::decay_half`: halve-and-prune every inner map and
the totals map. Outer `trans_` entries are kept even when their inner
map becomes empty. -/
def Markov.decayHalf (m : Markov Key) : Markov Key :=
  ⟨m.trans.map (fun pr => (pr.1, halvePrune pr.2)), halvePrune m.totals⟩

/-- The predictor after a sequence of `observe` calls on a fresh
predictor. -/
def runObs (l : List (Key × Key)) : Markov Key :=
  l.foldl (fun m pk => m.observe pk.1 pk.2) (mkMarkov Key)

/-! ### Predictive wrapper (`PredictiveShardedCache.hpp`) -/

structure PSCOptions where
  shards : Nat
  prefetchTopk : Nat
  minTransCount : Nat
  minTransProb : ℚ
  enablePrefetch : Bool

structure PSC (Key Value : Type) where
  base : SWT Key Value
  opts : PSCOptions
  preds : List (Markov Key)
  prevs : List (Option Key)

/-- `PredictiveShardedCache::shidx`: `hasher_(k) % opts_.shards`. -/
def PSC.shidx (s : PSC Key Value) (hash : Key → Nat) (k : Key) : Nat :=
  hash k % s.opts.shards

/-- `PredictiveShardedCache::get`: learn the transition from the shard's
previous key, set the previous key to `k`, read `k` from the underlying
sharded cache, then (when prefetch is enabled) for each predicted
successor probe the underlying cache and insert a default-constructed
placeholder on a miss; the result returned is the original lookup. -/
def PSC.get [Inhabited Value] (s : PSC Key Value) (hash : Key → Nat) (k : Key) :
    Option Value × PSC Key Value :=
  let i := s.shidx hash k
  let preds' := match s.prevs.getD i none with
    | some p => s.preds.set i ((s.preds.getD i (mkMarkov Key)).observe p k)
    | none => s.preds
  let prevs' := s.prevs.set i (some k)
  let r := s.base.get hash k
  let base' :=
    if s.opts.enablePrefetch then
      let cand := (preds'.getD i (mkMarkov Key)).topkNext k s.opts.prefetchTopk
        s.opts.minTransCount s.opts.minTransProb
      cand.foldl (fun b nxt =>
        let pr := b.get hash nxt
        if pr.1.isNone then pr.2.put hash nxt default else pr.2) r.2
    else r.2
  (r.1, ⟨base', s.opts, preds', prevs'⟩)

/-- `PredictiveShardedCache::put`: delegate to the underlying put and
record `k` as the shard's previous key; no transition is observed. -/
def PSC.put (s : PSC Key Value) (hash : Key → Nat) (k : Key) (v : Value) :
    PSC Key Value :=
  let i := s.shidx hash k
  ⟨s.base.put hash k v, s.opts, s.preds, s.prevs.set i (some k)⟩

/-! ### Lemmas: the LRU core representation invariant -/

theorem keys_eraseP_nodup (l : List (Key × Value)) (p : Key × Value → Bool)
    (h : (l.map (·.1)).Nodup) : ((l.eraseP p).map (·.1)).Nodup :=
  ((l.eraseP_sublist).map _).nodup h

theorem not_mem_keys_eraseP (l : List (Key × Value)) (k : Key)
    (h : (l.map (·.1)).Nodup) :
    k ∉ (l.eraseP (fun p => p.1 == k)).map (·.1) := by
  induction l with
  | nil => simp
  | cons x xs ih =>
    simp only [List.map_cons, List.nodup_cons] at h
    by_cases hx : x.1 = k
    · rw [List.eraseP_cons, show ((x.1 == k) = true) from beq_iff_eq.mpr hx]
      simpa [hx] using h.1
    · rw [List.eraseP_cons, show ((x.1 == k) = false) from beq_eq_false_iff_ne.mpr hx]
      simp only [cond_false, List.map_cons, List.mem_cons, not_or]
      exact ⟨fun hk => hx hk.symm, ih h.2⟩

/-- Invariant preservation of `LRUCache::get`: well-formedness,
capacity, and `size ≤ C`. -/
theorem lruGet_inv (s : LRU Key Value) (k : Key) (C : Nat)
    (h : s.wf ∧ s.capacity = C ∧ s.size ≤ C) :
    (s.get k).2.wf ∧ (s.get k).2.capacity = C ∧ (s.get k).2.size ≤ C := by
  obtain ⟨hwf, hcap, hsz⟩ := h
  cases hf : s.items.find? (fun p => p.1 == k) with
  | none => simp only [LRU.get, hf]; exact ⟨hwf, hcap, hsz⟩
  | some e =>
    have hek : e.1 = k := by have := List.find?_some hf; simpa using this
    have hmem := List.mem_of_find?_eq_some hf
    have hpos : 0 < s.items.length := List.length_pos_of_mem hmem
    simp only [LRU.get, hf]
    refine ⟨?_, hcap, ?_⟩
    · simp only [LRU.wf, List.map_cons, List.nodup_cons]
      exact ⟨hek ▸ not_mem_keys_eraseP s.items k hwf, keys_eraseP_nodup _ _ hwf⟩
    · simp only [LRU.size, List.length_cons] at hsz ⊢
      rw [List.length_eraseP_of_mem hmem (by simpa using hek)]
      omega

/-- Invariant preservation of `LRUCache::put`. -/
theorem lruPut_inv (s : LRU Key Value) (k : Key) (v : Value) (C : Nat)
    (h : s.wf ∧ s.capacity = C ∧ s.size ≤ C) :
    (s.put k v).wf ∧ (s.put k v).capacity = C ∧ (s.put k v).size ≤ C := by
  obtain ⟨hwf, hcap, hsz⟩ := h
  cases hc : s.contains k with
  | true =>
    obtain ⟨x, hx, hxk⟩ : ∃ x ∈ s.items, x.1 = k := by
      simpa [LRU.contains] using hc
    have hpos : 0 < s.items.length := List.length_pos_of_mem hx
    simp only [LRU.put, hc, if_true]
    refine ⟨?_, hcap, ?_⟩
    · simp only [LRU.wf, List.map_cons, List.nodup_cons]
      exact ⟨not_mem_keys_eraseP s.items k hwf, keys_eraseP_nodup _ _ hwf⟩
    · simp only [LRU.size, List.length_cons] at hsz ⊢
      rw [List.length_eraseP_of_mem hx (by simpa using hxk)]
      omega
  | false =>
    have hk : k ∉ s.items.map (·.1) := by
      intro hmem
      obtain ⟨x, hx, hxk⟩ := List.mem_map.mp hmem
      have hany : s.items.any (fun p => p.1 == k) = true :=
        List.any_eq_true.mpr ⟨x, hx, beq_iff_eq.mpr hxk⟩
      simp only [LRU.contains] at hc
      rw [hc] at hany
      exact Bool.false_ne_true hany
    have hwf' : (((k, v) :: s.items).map (·.1)).Nodup := by
      simp only [List.map_cons, List.nodup_cons]; exact ⟨hk, hwf⟩
    simp only [LRU.put, hc, if_false, Bool.false_eq_true]
    by_cases hlen : s.capacity < ((k, v) :: s.items).length
    · simp only [hlen, if_true]
      refine ⟨(List.dropLast_sublist _ |>.map _).nodup hwf', hcap, ?_⟩
      simp only [LRU.size, List.length_dropLast, List.length_cons] at hsz ⊢
      omega
    · simp only [hlen, if_false]
      refine ⟨hwf', hcap, ?_⟩
      simp only [LRU.size, List.length_cons] at hsz hlen ⊢
      omega

/-- Invariant preservation of `LRUCache::erase`. -/
theorem lruErase_inv (s : LRU Key Value) (k : Key) (C : Nat)
    (h : s.wf ∧ s.capacity = C ∧ s.size ≤ C) :
    (s.erase k).2.wf ∧ (s.erase k).2.capacity = C ∧ (s.erase k).2.size ≤ C := by
  obtain ⟨hwf, hcap, hsz⟩ := h
  cases hc : s.contains k with
  | true =>
    simp only [LRU.erase, hc, if_true]
    exact ⟨keys_eraseP_nodup _ _ hwf, hcap,
      le_trans (List.length_eraseP_le _) hsz⟩
  | false =>
    simp only [LRU.erase, hc, if_false, Bool.false_eq_true]
    exact ⟨hwf, hcap, hsz⟩

theorem lruStep_inv (C : Nat) (s : LRU Key Value) (op : CacheOp Key Value)
    (h : s.wf ∧ s.capacity = C ∧ s.size ≤ C) :
    (s.step op).wf ∧ (s.step op).capacity = C ∧ (s.step op).size ≤ C := by
  cases op with
  | get k => exact lruGet_inv s k C h
  | put k v => exact lruPut_inv s k v C h
  | erase k => exact lruErase_inv s k C h

theorem foldl_step_inv {P : LRU Key Value → Prop}
    (hstep : ∀ s op, P s → P (s.step op)) :
    ∀ (ops : List (CacheOp Key Value)) (s : LRU Key Value),
      P s → P (ops.foldl LRU.step s)
  | [], _, h => h
  | op :: ops, s, h => foldl_step_inv hstep ops _ (hstep s op h)

/-- Every state of an `LRUCache` built with capacity `C` is well formed,
keeps capacity `C`, and holds at most `C` entries. -/
theorem runLRU_inv (C : Nat) (ops : List (CacheOp Key Value)) :
    (runLRU C ops).wf ∧ (runLRU C ops).capacity = C ∧ (runLRU C ops).size ≤ C :=
  foldl_step_inv (fun s op h => lruStep_inv C s op h) ops (mkLRU Key Value C)
    ⟨by simp [LRU.wf, mkLRU], rfl, by simp [LRU.size, mkLRU]⟩

/-- On a full LRU core, a put of a fresh key evicts the tail key. -/
theorem lruPut_evicts_tail (s : LRU Key Value) (k : Key) (v : Value) (t : Key)
    (hwf : s.wf) (hnp : s.contains k = false) (hfull : s.size = s.capacity)
    (htail : s.peekLruKey = some t) : (s.put k v).contains t = false := by
  obtain ⟨e, he, het⟩ : ∃ e, s.items.getLast? = some e ∧ e.1 = t := by
    simpa [LRU.peekLruKey] using htail
  have hsplit : s.items.dropLast ++ [e] = s.items :=
    List.dropLast_append_getLast? e he
  have hne : s.items ≠ [] := by
    intro h0; rw [h0] at he; simp at he
  have hmem : e ∈ s.items := by
    rw [← hsplit]; exact List.mem_append_right _ (List.mem_singleton.mpr rfl)
  have hkabs : ∀ x ∈ s.items, ¬ x.1 = k := by
    intro x hx hxk
    have hany : s.items.any (fun p => p.1 == k) = true :=
      List.any_eq_true.mpr ⟨x, hx, beq_iff_eq.mpr hxk⟩
    simp only [LRU.contains] at hnp
    rw [hnp] at hany
    exact Bool.false_ne_true hany
  have htk : t ≠ k := het ▸ hkabs e hmem
  have hlen : s.capacity < ((k, v) :: s.items).length := by
    simp only [List.length_cons]
    simp only [LRU.size] at hfull
    omega
  have hdrop : ((k, v) :: s.items).dropLast = (k, v) :: s.items.dropLast :=
    List.dropLast_cons_of_ne_nil hne
  have htabs : t ∉ (s.items.dropLast).map (·.1) := by
    have hnd : ((s.items.dropLast ++ [e]).map (·.1)).Nodup := by
      rw [hsplit]; exact hwf
    simp only [List.map_append, List.map_cons, List.map_nil, List.nodup_append] at hnd
    intro hmem'
    exact hnd.2.2 hmem' (by simp [het])
  simp only [LRU.put, hnp, if_false, Bool.false_eq_true, hlen, if_true, hdrop]
  simp only [LRU.contains, List.any_eq_true, not_exists]
  rw [Bool.eq_false_iff]
  intro hcon
  obtain ⟨x, hx, hxk⟩ := List.any_eq_true.mp hcon
  rcases List.mem_cons.mp hx with h1 | h2
  · exact htk (by rw [h1] at hxk; exact (beq_iff_eq.mp hxk).symm ▸ rfl)
  · exact htabs (List.mem_map.mpr ⟨x, h2, beq_iff_eq.mp hxk⟩)

/-- `std::hash<size_t>` in libstdc++ is the identity; used for concrete
instances. -/
def hashId : Nat → Nat := fun n => n

/-- C2: on an `LRUCache` of capacity `C`, after every sequence of
get/put/erase operations `size() ≤ C`; and a `put` of a non-resident key
on a full cache removes the key that `peek_lru_key()` reported before
the put. -/
theorem C2_lru_size_bound_and_tail_eviction (C : Nat) :
    (∀ ops : List (CacheOp Key Value), (runLRU C ops).size ≤ C) ∧
    (∀ (ops : List (CacheOp Key Value)) (k : Key) (v : Value) (t : Key),
      (runLRU C ops).contains k = false → (runLRU C ops).size = C →
      (runLRU C ops).peekLruKey = some t →
      ((runLRU C ops).put k v).contains t = false) := by
  refine ⟨fun ops => (runLRU_inv C ops).2.2, ?_⟩
  intro ops k v t hnp hfull htail
  obtain ⟨hwf, hcap, _⟩ := @runLRU_inv Key Value _ C ops
  exact lruPut_evicts_tail _ k v t hwf hnp (by rw [hfull, hcap]) htail

/-- Witness for C2 at `C = 1` after `put 1 10`: key 2 is fresh, the cache
is full, the tail is key 1, and after `put 2 20` key 1 is gone. -/
theorem C2_witness :
    ((runLRU 1 [CacheOp.put 1 10] : LRU Nat Nat).contains 2 = false ∧
     (runLRU 1 [CacheOp.put 1 10] : LRU Nat Nat).size = 1 ∧
     (runLRU 1 [CacheOp.put 1 10] : LRU Nat Nat).peekLruKey = some 1) ∧
    ((runLRU 1 [CacheOp.put 1 10] : LRU Nat Nat).put 2 20).contains 1 = false :=
  ⟨⟨by decide, by decide, by decide⟩,
   (C2_lru_size_bound_and_tail_eviction 1).2 [CacheOp.put 1 10] 2 20 1
     (by decide) (by decide) (by decide)⟩

/-- C9: an `LRUCache` of capacity 0 constructs (the constructor has no
failure path) and every `put` on any reachable state of it leaves it
empty: the fresh entry is evicted within the same `put`, so `size()` is
0, `contains` is false and `get` misses. -/
theorem C9_capacity_zero_put_self_evicts
    (ops : List (CacheOp Key Value)) (k : Key) (v : Value) :
    ((runLRU 0 ops).put k v).size = 0 ∧
    ((runLRU 0 ops).put k v).contains k = false ∧
    (((runLRU 0 ops).put k v).get k).1 = none := by
  obtain ⟨hwf, hcap, hsz⟩ := @runLRU_inv Key Value _ 0 ops
  simp only [LRU.size] at hsz
  have hitems : (@runLRU Key Value _ 0 ops).items = [] :=
    List.length_eq_zero.mp (Nat.le_zero.mp hsz)
  have hput : (runLRU 0 ops).put k v = ⟨[], 0⟩ := by
    simp [LRU.put, LRU.contains, hitems, hcap]
  rw [hput]
  exact ⟨rfl, rfl, rfl⟩

/-- C3 counterexample: an `LRUCache` of capacity 0 and a
`CountMinSketch` of non-power-of-two width 3 are both constructed
without failure and are usable (operations run and observe the intended
semantics), contradicting the claim that these configurations are
rejected at construction; only a zero shard count is. -/
theorem C3_counterexample :
    ((mkLRU Nat Nat 0).put 1 2).size = 0 ∧
    ((mkLRU Nat Nat 0).get 1).1 = none ∧
    (mkLRU Nat Nat 0).capacity = 0 ∧
    ((mkCMS 3 2).add hashId 1).estimate hashId 1 = 1 ∧
    mkShardedLRU Nat Nat 10 0 = .error "num_shards must be > 0" :=
  ⟨by decide, by decide, rfl, by decide, rfl⟩

/-- C3 amended: only the shard count is validated at construction: both
sharded constructors fail on 0 shards and succeed on `N ≠ 0` shards,
while `LRUCache` accepts capacity 0 and `CountMinSketch` accepts any
width (including non-powers of two), both yielding usable objects. -/
theorem C3_amended_only_shards_validated (T w d N : Nat) (hN : N ≠ 0) :
    mkShardedLRU Nat Nat T 0 = .error "num_shards must be > 0" ∧
    mkSWT Nat Nat T 0 w d = .error "shards must be > 0" ∧
    (∃ ls, mkShardedLRU Nat Nat T N = .ok ls ∧ ls.length = N) ∧
    (∃ ts, mkSWT Nat Nat T N w d = .ok ts ∧ ts.shards.length = N) ∧
    ((mkLRU Nat Nat 0).capacity = 0 ∧ ((mkLRU Nat Nat 0).put 1 2).size = 0) ∧
    ((mkCMS w d).width = w ∧ (mkCMS w d).depth = d) := by
  refine ⟨by simp [mkShardedLRU], by simp [mkSWT], ?_, ?_, ⟨rfl, by decide⟩, rfl, rfl⟩
  · refine ⟨(List.range N).map
        (fun i => mkLRU Nat Nat (T / N + if i = N - 1 then T % N else 0)), ?_, by simp⟩
    simp [mkShardedLRU, hN]
  · refine ⟨⟨(List.range N).map
        (fun i => mkTLFU Nat Nat (T / N + if i = N - 1 then T % N else 0) w d)⟩, ?_, by simp⟩
    simp [mkSWT, hN]

/-- Witness for the amended C3 at `T = 5`, `w = 4`, `d = 2`, `N = 3`. -/
theorem C3_amended_witness :
    (3 ≠ 0) ∧
    (mkShardedLRU Nat Nat 5 0 = .error "num_shards must be > 0" ∧
     mkSWT Nat Nat 5 0 4 2 = .error "shards must be > 0" ∧
     (∃ ls, mkShardedLRU Nat Nat 5 3 = .ok ls ∧ ls.length = 3) ∧
     (∃ ts, mkSWT Nat Nat 5 3 4 2 = .ok ts ∧ ts.shards.length = 3) ∧
     ((mkLRU Nat Nat 0).capacity = 0 ∧ ((mkLRU Nat Nat 0).put 1 2).size = 0) ∧
     ((mkCMS 4 2).width = 4 ∧ (mkCMS 4 2).depth = 2)) :=
  ⟨by decide, C3_amended_only_shards_validated 5 4 2 3 (by decide)⟩

theorem getD_map_range {α : Type} (f : Nat → α) {N i : Nat} (d : α) (h : i < N) :
    ((List.range N).map f).getD i d = f i := by
  rw [List.getD_eq_getElem?_getD, List.getElem?_map, List.getElem?_range h]
  rfl

/-- The per-shard capacities assigned by both sharded constructors sum
to the configured total. -/
theorem sum_shard_caps (T N : Nat) (hN : 1 ≤ N) :
    ((List.range N).map (fun i => T / N + if i = N - 1 then T % N else 0)).sum = T := by
  obtain ⟨m, rfl⟩ : ∃ m, N = m + 1 := ⟨N - 1, by omega⟩
  rw [List.range_succ, List.map_append, List.sum_append]
  have h1 : (List.range m).map (fun i => T / (m + 1) + if i = (m + 1) - 1 then T % (m + 1) else 0)
      = (List.range m).map (fun _ => T / (m + 1)) := by
    apply List.map_congr_left
    intro a ha
    have ham : a < m := List.mem_range.mp ha
    rw [if_neg (by omega : ¬ a = m + 1 - 1)]
    omega
  rw [h1, List.map_const', List.length_range, List.sum_replicate, smul_eq_mul]
  simp only [List.map_cons, List.map_nil, List.sum_cons, List.sum_nil, Nat.add_sub_cancel,
    eq_self_iff_true, if_true]
  have hdm := Nat.div_add_mod T (m + 1)
  rw [Nat.succ_mul] at hdm
  omega

/-- C8: both sharded constructors with total capacity `T` and `N ≥ 1`
shards give shards `0 .. N-2` capacity `⌊T/N⌋`, shard `N-1` capacity
`⌊T/N⌋ + (T mod N)`, and the per-shard capacities sum to `T`. -/
theorem C8_shard_capacity_distribution (T N : Nat) (hN : 1 ≤ N) :
    ∃ (ls : List (LRU Nat Nat)) (ts : SWT Nat Nat),
      mkShardedLRU Nat Nat T N = .ok ls ∧ mkSWT Nat Nat T N 4096 4 = .ok ts ∧
      ls.length = N ∧ ts.shards.length = N ∧
      (∀ i, i < N - 1 → (ls.getD i (mkLRU Nat Nat 0)).capacity = T / N) ∧
      (ls.getD (N - 1) (mkLRU Nat Nat 0)).capacity = T / N + T % N ∧
      (ls.map (·.capacity)).sum = T ∧
      (∀ i, i < N - 1 → (ts.shards.getD i (dfltTLFU Nat Nat)).lru.capacity = T / N) ∧
      (ts.shards.getD (N - 1) (dfltTLFU Nat Nat)).lru.capacity = T / N + T % N ∧
      (ts.shards.map (·.lru.capacity)).sum = T := by
  have hN0 : ¬ N = 0 := by omega
  refine ⟨(List.range N).map
      (fun i => mkLRU Nat Nat (T / N + if i = N - 1 then T % N else 0)),
    ⟨(List.range N).map
      (fun i => mkTLFU Nat Nat (T / N + if i = N - 1 then T % N else 0) 4096 4)⟩,
    by simp [mkShardedLRU, hN0], by simp [mkSWT, hN0], by simp, by simp, ?_, ?_, ?_, ?_, ?_, ?_⟩
  · intro i hi
    rw [getD_map_range _ _ (by omega)]
    simp [mkLRU, show ¬ i = N - 1 by omega]
  · rw [getD_map_range _ _ (by omega)]
    simp [mkLRU]
  · rw [List.map_map]
    exact sum_shard_caps T N hN
  · intro i hi
    rw [getD_map_range _ _ (by omega)]
    simp [mkTLFU, mkLRU, show ¬ i = N - 1 by omega]
  · rw [getD_map_range _ _ (by omega)]
    simp [mkTLFU, mkLRU]
  · rw [List.map_map]
    exact sum_shard_caps T N hN

/-- Witness for C8 at `T = 10`, `N = 3` (shard capacities 3, 3, 4). -/
theorem C8_witness :
    (1 ≤ 3) ∧
    (∃ (ls : List (LRU Nat Nat)) (ts : SWT Nat Nat),
      mkShardedLRU Nat Nat 10 3 = .ok ls ∧ mkSWT Nat Nat 10 3 4096 4 = .ok ts ∧
      ls.length = 3 ∧ ts.shards.length = 3 ∧
      (∀ i, i < 3 - 1 → (ls.getD i (mkLRU Nat Nat 0)).capacity = 10 / 3) ∧
      (ls.getD (3 - 1) (mkLRU Nat Nat 0)).capacity = 10 / 3 + 10 % 3 ∧
      (ls.map (·.capacity)).sum = 10 ∧
      (∀ i, i < 3 - 1 → (ts.shards.getD i (dfltTLFU Nat Nat)).lru.capacity = 10 / 3) ∧
      (ts.shards.getD (3 - 1) (dfltTLFU Nat Nat)).lru.capacity = 10 / 3 + 10 % 3 ∧
      (ts.shards.map (·.lru.capacity)).sum = 10) :=
  ⟨by decide, C8_shard_capacity_distribution 10 3 (by decide)⟩

/-! ### Lemmas: Count-Min sketch counters -/

theorem satIncr_le_max (c : Nat) (h : c ≤ UINT32MAX) : satIncr c ≤ UINT32MAX := by
  unfold satIncr; split <;> omega

theorem le_satIncr (c : Nat) : c ≤ satIncr c := by
  unfold satIncr; split <;> omega

theorem satIncr_min_lb (c n : Nat) (h : min n UINT32MAX ≤ c) :
    min (n + 1) UINT32MAX ≤ satIncr c := by
  unfold satIncr; split <;> omega

theorem satIncr_add_min (x m : Nat) (h : x ≤ UINT32MAX) :
    min (satIncr x + m) UINT32MAX = min (x + (m + 1)) UINT32MAX := by
  unfold satIncr
  split <;> omega

theorem le_foldl_min (f : Nat → Nat) (b : Nat) :
    ∀ (l : List Nat) (init : Nat), b ≤ init → (∀ x ∈ l, b ≤ f x) →
      b ≤ l.foldl (fun m i => min m (f i)) init
  | [], _, hi, _ => hi
  | x :: xs, init, hi, hl =>
    le_foldl_min f b xs _ (le_min hi (hl x (List.mem_cons_self x xs)))
      (fun y hy => hl y (List.mem_cons_of_mem x hy))

theorem foldl_min_le (f : Nat → Nat) :
    ∀ (l : List Nat) (init : Nat), l.foldl (fun m i => min m (f i)) init ≤ init
  | [], _ => le_refl _
  | x :: xs, init => le_trans (foldl_min_le f xs (min init (f x))) (min_le_left _ _)

/-- After a run of `add` calls, every counter stays within `uint32_t`
range, the depth is unchanged, and each of `k`'s selected counters is at
least `min (n + count of k) UINT32_MAX` if it started at least
`min n UINT32_MAX` (each `add k` saturating-increments it, and no `add`
ever decrements any counter). -/
theorem runCMSFrom_cell_lb (hash : Key → Nat) (k : Key) :
    ∀ (adds : List Key) (s : CMS) (n : Nat),
      (∀ i j, s.rows i j ≤ UINT32MAX) →
      (∀ i, i < s.depth → min n UINT32MAX ≤ s.rows i (s.index hash k i)) →
      (∀ i j, (adds.foldl (fun t a => t.add hash a) s).rows i j ≤ UINT32MAX) ∧
      (adds.foldl (fun t a => t.add hash a) s).depth = s.depth ∧
      (∀ i, i < s.depth →
        min (n + adds.count k) UINT32MAX ≤
          (adds.foldl (fun t a => t.add hash a) s).rows i
            ((adds.foldl (fun t a => t.add hash a) s).index hash k i)) := by
  intro adds
  induction adds with
  | nil => intro s n hub hlb; exact ⟨hub, rfl, fun i hi => by simpa using hlb i hi⟩
  | cons a rest ih =>
    intro s n hub hlb
    have hrows : ∀ i j, (s.add hash a).rows i j =
        if i < s.depth ∧ j = s.index hash a i then satIncr (s.rows i j)
        else s.rows i j := fun _ _ => rfl
    have hub' : ∀ i j, (s.add hash a).rows i j ≤ UINT32MAX := by
      intro i j
      rw [hrows]
      split
      · exact satIncr_le_max _ (hub i j)
      · exact hub i j
    have hidx : ∀ i, (s.add hash a).index hash k i = s.index hash k i := fun _ => rfl
    have hlb' : ∀ i, i < (s.add hash a).depth →
        min (n + if k = a then 1 else 0) UINT32MAX ≤
          (s.add hash a).rows i ((s.add hash a).index hash k i) := by
      intro i hi
      have hi' : i < s.depth := hi
      rw [hidx, hrows]
      by_cases hak : k = a
      · have hcond : i < s.depth ∧ s.index hash k i = s.index hash a i :=
          ⟨hi', by rw [hak]⟩
        rw [if_pos hak, if_pos hcond]
        exact satIncr_min_lb _ n (hlb i hi')
      · rw [if_neg hak, Nat.add_zero]
        split
        · exact le_trans (hlb i hi') (le_satIncr _)
        · exact hlb i hi'
    obtain ⟨h1, h2, h3⟩ := ih (s.add hash a) (n + if k = a then 1 else 0) hub' hlb'
    refine ⟨h1, h2, ?_⟩
    intro i hi
    have hfin := h3 i hi
    have hcount : (a :: rest).count k = rest.count k + if k = a then 1 else 0 := by
      rw [List.count_cons]
      by_cases hak : k = a
      · simp [hak]
      · have hak' : ¬ a = k := fun h => hak h.symm
        simp [hak, hak']
    rw [List.foldl_cons, hcount]
    have harr : n + (rest.count k + if k = a then 1 else 0)
        = n + (if k = a then 1 else 0) + rest.count k := by omega
    rw [harr]
    exact hfin

/-- The estimate is either the `0` sentinel (the minimum hit
`UINT32_MAX`) or at least `n` when every selected counter is at least
`min n UINT32_MAX`. -/
theorem cms_estimate_cases (s : CMS) (hash : Key → Nat) (k : Key) (n : Nat)
    (hlb : ∀ i, i < s.depth → min n UINT32MAX ≤ s.rows i (s.index hash k i)) :
    s.estimate hash k = 0 ∨ n ≤ s.estimate hash k := by
  unfold CMS.estimate
  by_cases hmm : (List.range s.depth).foldl
      (fun m i => min m (s.rows i (s.index hash k i))) UINT32MAX = UINT32MAX
  · left; simp [hmm]
  · right
    have h1 : min n UINT32MAX ≤ (List.range s.depth).foldl
        (fun m i => min m (s.rows i (s.index hash k i))) UINT32MAX :=
      le_foldl_min _ _ _ _ (min_le_right _ _)
        (fun x hx => hlb x (List.mem_range.mp hx))
    have h2 : (List.range s.depth).foldl
        (fun m i => min m (s.rows i (s.index hash k i))) UINT32MAX ≤ UINT32MAX :=
      foldl_min_le _ _ _
    simp only [hmm, if_false]
    omega

/-- C4 counterexample: with width 1 every key selects the same counter;
after a single `add` of key 1, `estimate` for key 2 is 1 although key 2
was never observed, so `estimate(k) ≤ (observation count of k)` fails. -/
theorem C4_counterexample :
    ¬ ((runCMS 1 1 hashId [1]).estimate hashId 2 ≤ List.count 2 [1]) := by decide

/-- C4 amended: the Count-Min sketch over-approximates: for every
sequence of `add` calls with no decay, either the estimate is the `0`
saturation sentinel (every selected counter reached `UINT32_MAX`) or
`estimate(k)` is at least the number of times `k` was added. The claimed
direction `estimate(k) ≤ count` is false in general (collisions). -/
theorem C4_amended_estimate_overapproximates
    (hash : Key → Nat) (w d : Nat) (adds : List Key) (k : Key) :
    (runCMS w d hash adds).estimate hash k = 0 ∨
      adds.count k ≤ (runCMS w d hash adds).estimate hash k := by
  obtain ⟨_, hdep, hlb⟩ := runCMSFrom_cell_lb hash k adds (mkCMS w d) 0
    (fun i j => Nat.zero_le _) (fun i hi => by simp [mkCMS])
  apply cms_estimate_cases
  intro i hi
  show min (adds.count k) UINT32MAX ≤
    (adds.foldl (fun t a => t.add hash a) (mkCMS w d)).rows i
      ((adds.foldl (fun t a => t.add hash a) (mkCMS w d)).index hash k i)
  have hi' : i < (mkCMS w d).depth := by
    rw [← hdep]
    exact hi
  have := hlb i hi'
  simpa using this

/-- Counters of `k` after `n` adds of only key `0` on a width-1 depth-1
sketch: the single cell holds `min (start + n) UINT32_MAX`. -/
theorem cell_after_replicate_adds :
    ∀ (n : Nat) (s : CMS), s.width = 1 → s.depth = 1 → s.rows 0 0 ≤ UINT32MAX →
      ((List.replicate n (0 : Nat)).foldl (fun t a => t.add hashId a) s).rows 0 0
        = min (s.rows 0 0 + n) UINT32MAX ∧
      ((List.replicate n (0 : Nat)).foldl (fun t a => t.add hashId a) s).width = 1 ∧
      ((List.replicate n (0 : Nat)).foldl (fun t a => t.add hashId a) s).depth = 1 := by
  intro n
  induction n with
  | zero =>
    intro s hw hd hub
    refine ⟨?_, hw, hd⟩
    simp only [List.replicate, List.foldl_nil]
    omega
  | succ m ih =>
    intro s hw hd hub
    have hidx : s.index hashId 0 0 = 0 := by
      simp only [CMS.index, hw]
      rfl
    have hcell : (s.add hashId (0 : Nat)).rows 0 0 = satIncr (s.rows 0 0) := by
      have hr : (s.add hashId (0 : Nat)).rows 0 0 =
          if 0 < s.depth ∧ 0 = s.index hashId 0 0 then satIncr (s.rows 0 0)
          else s.rows 0 0 := rfl
      rw [hr, if_pos ⟨by omega, hidx.symm⟩]
    obtain ⟨h1, h2, h3⟩ := ih (s.add hashId 0) hw hd
      (by rw [hcell]; exact satIncr_le_max _ hub)
    rw [List.replicate_succ, List.foldl_cons]
    refine ⟨?_, h2, h3⟩
    rw [h1, hcell]
    exact satIncr_add_min _ _ hub

/-- C10: (1) when every selected counter of `k` equals `UINT32_MAX`, the
estimate is 0 rather than `UINT32_MAX`; (2) consequently, with no decay,
after `UINT32_MAX - 1` adds of key 0 on a width-1 depth-1 sketch the
estimate is `UINT32_MAX - 1`, and one further add drops it strictly,
to 0. -/
theorem C10_saturated_estimate_returns_zero :
    (∀ (s : CMS) (hash : Key → Nat) (k : Key), 0 < s.depth →
      (∀ i, i < s.depth → s.rows i (s.index hash k i) = UINT32MAX) →
      s.estimate hash k = 0) ∧
    (∃ n : Nat,
      (runCMS 1 1 hashId (List.replicate (n + 1) 0)).estimate hashId 0 <
        (runCMS 1 1 hashId (List.replicate n 0)).estimate hashId 0) := by
  constructor
  · intro s hash k hd hsat
    unfold CMS.estimate
    have hge : UINT32MAX ≤ (List.range s.depth).foldl
        (fun m i => min m (s.rows i (s.index hash k i))) UINT32MAX :=
      le_foldl_min _ _ _ _ (le_refl _)
        (fun x hx => le_of_eq (hsat x (List.mem_range.mp hx)).symm)
    have hle : (List.range s.depth).foldl
        (fun m i => min m (s.rows i (s.index hash k i))) UINT32MAX ≤ UINT32MAX :=
      foldl_min_le _ _ _
    rw [if_pos (le_antisymm hle hge)]
  · refine ⟨UINT32MAX - 1, ?_⟩
    have hbase : ∀ m, (runCMS 1 1 hashId (List.replicate m 0)).rows 0 0 = min m UINT32MAX ∧
        (runCMS 1 1 hashId (List.replicate m 0)).width = 1 ∧
        (runCMS 1 1 hashId (List.replicate m 0)).depth = 1 := by
      intro m
      have := cell_after_replicate_adds m (mkCMS 1 1) rfl rfl (Nat.zero_le _)
      simpa [runCMS, mkCMS] using this
    have hest : ∀ m, (runCMS 1 1 hashId (List.replicate m 0)).estimate hashId 0
        = if min m UINT32MAX = UINT32MAX then 0 else min m UINT32MAX := by
      intro m
      obtain ⟨hc, hw, hd⟩ := hbase m
      have hidx : (runCMS 1 1 hashId (List.replicate m 0)).index hashId 0 0 = 0 := by
        simp only [CMS.index, hw]
        rfl
      unfold CMS.estimate
      rw [hd, show List.range 1 = [0] from rfl, List.foldl_cons, List.foldl_nil, hidx, hc]
      rw [show UINT32MAX ⊓ (m ⊓ UINT32MAX) = m ⊓ UINT32MAX by omega]
    rw [hest, hest]
    have h1 : UINT32MAX - 1 + 1 = UINT32MAX := by
      unfold UINT32MAX; omega
    rw [h1]
    simp only [min_self, eq_self_iff_true, if_true]
    rw [if_neg (by unfold UINT32MAX; omega : ¬ min (UINT32MAX - 1) UINT32MAX = UINT32MAX)]
    unfold UINT32MAX
    omega

/-- Witness for C10 part 1 at a concrete saturated width-1 depth-1
sketch. -/
theorem C10_witness :
    (0 < (⟨1, 1, fun _ _ => UINT32MAX⟩ : CMS).depth ∧
      (∀ i, i < (⟨1, 1, fun _ _ => UINT32MAX⟩ : CMS).depth →
        (⟨1, 1, fun _ _ => UINT32MAX⟩ : CMS).rows i
          ((⟨1, 1, fun _ _ => UINT32MAX⟩ : CMS).index hashId 5 i) = UINT32MAX)) ∧
    (⟨1, 1, fun _ _ => UINT32MAX⟩ : CMS).estimate hashId 5 = 0 :=
  ⟨⟨by decide, by decide⟩,
    C10_saturated_estimate_returns_zero.1 _ hashId 5 (by decide) (by decide)⟩

/-! ### Lemmas: the Markov predictor's transition table -/

theorem alGet_cons (p : Key × α) (ps : List (Key × α)) (k : Key) :
    alGet (p :: ps) k = if p.1 = k then some p.2 else alGet ps k := by
  by_cases h : p.1 = k <;> simp [alGet, List.find?_cons, h]

theorem alSet_cons (p : Key × α) (ps : List (Key × α)) (k : Key) (v : α) :
    alSet (p :: ps) k v = if p.1 = k then (k, v) :: ps else p :: alSet ps k v := by
  by_cases h : p.1 = k <;> simp [alSet, h]

theorem alGet_alSet_self (l : List (Key × α)) (k : Key) (v : α) :
    alGet (alSet l k v) k = some v := by
  induction l with
  | nil => simp [alSet, alGet_cons]
  | cons p ps ih =>
    rw [alSet_cons]
    by_cases h : p.1 = k
    · rw [if_pos h, alGet_cons, if_pos rfl]
    · rw [if_neg h, alGet_cons, if_neg h]
      exact ih

theorem alGet_alSet_ne (l : List (Key × α)) (k k' : Key) (v : α) (h : ¬ k = k') :
    alGet (alSet l k v) k' = alGet l k' := by
  induction l with
  | nil => simp [alSet, alGet_cons, alGet, h]
  | cons p ps ih =>
    rw [alSet_cons, alGet_cons]
    by_cases hpk : p.1 = k
    · rw [if_pos hpk, alGet_cons, if_neg (show ¬ (k, v).1 = k' from h),
        if_neg (show ¬ p.1 = k' from fun hh => h (hpk.symm.trans hh))]
    · rw [if_neg hpk, alGet_cons, ih]

/-- The sum of the stored counts of one counter map (`Σₖ c[p][k]`). -/
def sumCounts (l : List (Key × Nat)) : Nat :=
  (l.map (·.2)).sum

theorem sumCounts_cons (p : Key × Nat) (ps : List (Key × Nat)) :
    sumCounts (p :: ps) = p.2 + sumCounts ps := by
  simp [sumCounts]

/-- Updating one entry changes the sum by the difference between the new
and the old value (stated additively to stay in `Nat`). -/
theorem sumCounts_alSet (l : List (Key × Nat)) (k : Key) (v : Nat) :
    sumCounts (alSet l k v) + (alGet l k).getD 0 = sumCounts l + v := by
  induction l with
  | nil => simp [alSet, alGet, sumCounts]
  | cons p ps ih =>
    rw [alSet_cons, alGet_cons]
    by_cases h : p.1 = k
    · rw [if_pos h, if_pos h, sumCounts_cons, sumCounts_cons]
      simp only [Option.getD_some]
      omega
    · rw [if_neg h, if_neg h, sumCounts_cons, sumCounts_cons]
      omega

/-- The totals/sum relation the predictor maintains under `observe`:
the stored total is the sum of the stored counts reduced mod `2^32`. -/
def MarkovTotalsInv (m : Markov Key) : Prop :=
  ∀ p, (alGet m.totals p).getD 0 = sumCounts ((alGet m.trans p).getD []) % M32

theorem markovTotalsInv_observe (m : Markov Key) (p0 k0 : Key)
    (h : MarkovTotalsInv m) : MarkovTotalsInv (m.observe p0 k0) := by
  intro q
  by_cases hq : p0 = q
  · subst hq
    show (alGet (alSet m.totals p0 (((alGet m.totals p0).getD 0 + 1) % M32)) p0).getD 0
        = sumCounts ((alGet (alSet m.trans p0 (alSet ((alGet m.trans p0).getD [])
            k0 (((alGet ((alGet m.trans p0).getD []) k0).getD 0 + 1) % M32))) p0).getD []) % M32
    rw [alGet_alSet_self, alGet_alSet_self]
    have hsum := sumCounts_alSet ((alGet m.trans p0).getD []) k0
      (((alGet ((alGet m.trans p0).getD []) k0).getD 0 + 1) % M32)
    have hIH := h p0
    simp only [Option.getD_some]
    have hM : M32 = 4294967296 := rfl
    rw [hM] at hsum hIH ⊢
    omega
  · show (alGet (alSet m.totals p0 (((alGet m.totals p0).getD 0 + 1) % M32)) q).getD 0
        = sumCounts ((alGet (alSet m.trans p0 (alSet ((alGet m.trans p0).getD [])
            k0 (((alGet ((alGet m.trans p0).getD []) k0).getD 0 + 1) % M32))) q).getD []) % M32
    rw [alGet_alSet_ne _ _ _ _ hq, alGet_alSet_ne _ _ _ _ hq]
    exact h q

/-- C6 counterexample: `observe(0,1); observe(0,2); decay_half` leaves
key 0 present in the transition table with an empty successor map
(sum 0) but a stored total of 1: `decay_half` halves totals and counts
independently, and `⌊2/2⌋ ≠ ⌊1/2⌋ + ⌊1/2⌋`. -/
theorem C6_counterexample :
    (alGet ((((mkMarkov Nat).observe 0 1).observe 0 2).decayHalf).trans 0).isSome = true ∧
    (alGet ((((mkMarkov Nat).observe 0 1).observe 0 2).decayHalf).totals 0).getD 0 = 1 ∧
    sumCounts ((alGet ((((mkMarkov Nat).observe 0 1).observe 0 2).decayHalf).trans 0).getD []) = 0 ∧
    ¬ ((alGet ((((mkMarkov Nat).observe 0 1).observe 0 2).decayHalf).totals 0).getD 0
        = sumCounts ((alGet ((((mkMarkov Nat).observe 0 1).observe 0 2).decayHalf).trans 0).getD [])) := by
  refine ⟨by decide, by decide, by decide, by decide⟩

/-- C6 amended: restricted to states reachable by `observe` alone (no
`decay_half`), the stored total `t[p]` equals the sum of the stored
counts `Σₛ c[p][s]` reduced modulo `2^32` (the counters wrap); absent
entries read as 0. `decay_half` does not preserve the relation. -/
theorem C6_amended_totals_sum_invariant (l : List (Key × Key)) (p : Key) :
    (alGet (runObs l).totals p).getD 0
      = sumCounts ((alGet (runObs l).trans p).getD []) % M32 := by
  suffices h : ∀ (m : Markov Key), MarkovTotalsInv m →
      MarkovTotalsInv (l.foldl (fun m pk => m.observe pk.1 pk.2) m) by
    exact h (mkMarkov Key) (fun q => by simp [mkMarkov, alGet, sumCounts]) p
  induction l with
  | nil => intro m hm; exact hm
  | cons pk rest ih =>
    intro m hm
    exact ih _ (markovTotalsInv_observe m pk.1 pk.2 hm)

/-- C7: `MarkovPredictor::observe` increments `c[p][k]` and `t[p]`
modulo `2^32`: at a counter already at `UINT32_MAX` the `uint32_t` `++`
wraps both to 0 instead of saturating. Evaluated at the failing state
`c[0][1] = t[0] = UINT32_MAX`. -/
theorem C7_observe_wraps_at_uint32_max :
    (alGet ((alGet ((⟨[(0, [(1, 4294967295)])], [(0, 4294967295)]⟩ :
        Markov Nat).observe 0 1).trans 0).getD []) 1).getD 0 = 0 ∧
    (alGet ((⟨[(0, [(1, 4294967295)])], [(0, 4294967295)]⟩ :
        Markov Nat).observe 0 1).totals 0).getD 0 = 0 := by
  refine ⟨by decide, by decide⟩

/-! ### Lemmas and theorem: TinyLFU admission (C1) -/

/-- Erasing the key of the last node removes exactly the last node when
keys are distinct. -/
theorem eraseP_getLast_eq_dropLast (l : List (Key × Value)) (e : Key × Value) (t : Key)
    (hwf : (l.map (·.1)).Nodup) (hl : l.getLast? = some e) (het : e.1 = t) :
    l.eraseP (fun p => p.1 == t) = l.dropLast := by
  have hsplit : l.dropLast ++ [e] = l := List.dropLast_append_getLast? e hl
  have hnd : ((l.dropLast ++ [e]).map (·.1)).Nodup := by rw [hsplit]; exact hwf
  simp only [List.map_append, List.map_cons, List.map_nil, List.nodup_append] at hnd
  have hno : ∀ b ∈ l.dropLast, ¬ ((fun p => p.1 == t) b = true) := by
    intro b hb hcon
    have hbt : b.1 = t := beq_iff_eq.mp hcon
    exact hnd.2.2 (List.mem_map.mpr ⟨b, hb, rfl⟩) (by simp [hbt, het])
  conv_lhs => rw [← hsplit]
  rw [List.eraseP_append_right _ hno]
  rw [List.eraseP_cons, show (e.1 == t) = true from beq_iff_eq.mpr het]
  simp

/-- After pushing a fresh key and dropping the old tail, the old tail
key is gone. -/
theorem tail_key_not_in_push_dropLast (l : List (Key × Value)) (e : Key × Value)
    (t k : Key) (v : Value)
    (hwf : (l.map (·.1)).Nodup) (hl : l.getLast? = some e) (het : e.1 = t)
    (hk : ∀ x ∈ l, ¬ x.1 = k) :
    ((k, v) :: l.dropLast).any (fun p => p.1 == t) = false := by
  have hsplit : l.dropLast ++ [e] = l := List.dropLast_append_getLast? e hl
  have hmem : e ∈ l := by
    rw [← hsplit]; exact List.mem_append_right _ (List.mem_singleton.mpr rfl)
  have hek : ¬ e.1 = k := hk e hmem
  have hnd : ((l.dropLast ++ [e]).map (·.1)).Nodup := by rw [hsplit]; exact hwf
  simp only [List.map_append, List.map_cons, List.map_nil, List.nodup_append] at hnd
  rw [Bool.eq_false_iff]
  intro hcon
  obtain ⟨x, hx, hxk⟩ := List.any_eq_true.mp hcon
  rcases List.mem_cons.mp hx with h1 | h2
  · apply hek
    rw [het, ← beq_iff_eq.mp hxk, h1]
  · exact hnd.2.2 (List.mem_map.mpr ⟨x, h2, rfl⟩) (by simp [beq_iff_eq.mp hxk, het])

/-- C1: `TinyLFUAdmittingLRU::put(k, v)` with `k` not resident, the core
full and non-empty (victim `vk` = `peek_lru_key()`): the sketch is
incremented for `k` first; `k` ends up resident iff
`estimate(k) ≥ estimate(vk)` on the incremented sketch; on admission the
victim is erased and `k` sits at the MRU position; on rejection the core
is unchanged. -/
theorem C1_tinylfu_admission (hash : Key → Nat) (s : TLFU Key Value)
    (k : Key) (v : Value) (vk : Key)
    (hwf : s.lru.wf)
    (hnp : s.lru.contains k = false)
    (hfull : s.lru.size = s.lru.capacity)
    (hvic : s.lru.peekLruKey = some vk) :
    (s.put hash k v).cms = s.cms.add hash k ∧
    ((s.put hash k v).lru.contains k = true ↔
      (s.cms.add hash k).estimate hash vk ≤ (s.cms.add hash k).estimate hash k) ∧
    ((s.cms.add hash k).estimate hash vk ≤ (s.cms.add hash k).estimate hash k →
      (s.put hash k v).lru.items = (k, v) :: s.lru.items.dropLast ∧
      (s.put hash k v).lru.contains vk = false) ∧
    (¬ (s.cms.add hash k).estimate hash vk ≤ (s.cms.add hash k).estimate hash k →
      (s.put hash k v).lru = s.lru) := by
  obtain ⟨e, he, het⟩ : ∃ e, s.lru.items.getLast? = some e ∧ e.1 = vk := by
    simpa [LRU.peekLruKey] using hvic
  have hsplit : s.lru.items.dropLast ++ [e] = s.lru.items :=
    List.dropLast_append_getLast? e he
  have hmem : e ∈ s.lru.items := by
    rw [← hsplit]; exact List.mem_append_right _ (List.mem_singleton.mpr rfl)
  have hpos : 0 < s.lru.items.length := List.length_pos_of_mem hmem
  have hkabs : ∀ x ∈ s.lru.items, ¬ x.1 = k := by
    intro x hx hxk
    have hany : s.lru.items.any (fun p => p.1 == k) = true :=
      List.any_eq_true.mpr ⟨x, hx, beq_iff_eq.mpr hxk⟩
    simp only [LRU.contains] at hnp
    rw [hnp] at hany
    exact Bool.false_ne_true hany
  have hcvk : s.lru.contains vk = true :=
    List.any_eq_true.mpr ⟨e, hmem, beq_iff_eq.mpr het⟩
  have hput0 : s.put hash k v =
      (if (s.cms.add hash k).estimate hash vk ≤ (s.cms.add hash k).estimate hash k then
        ⟨((s.lru.erase vk).2).put k v, s.cms.add hash k⟩
      else ⟨s.lru, s.cms.add hash k⟩) := by
    simp only [TLFU.put, hnp, Bool.false_eq_true, if_false, hfull, lt_self_iff_false, hvic]
  have herase : (s.lru.erase vk).2 = ⟨s.lru.items.dropLast, s.lru.capacity⟩ := by
    simp only [LRU.erase, hcvk, if_true]
    rw [eraseP_getLast_eq_dropLast s.lru.items e vk hwf he het]
  have hc2 : (⟨s.lru.items.dropLast, s.lru.capacity⟩ : LRU Key Value).contains k = false := by
    rw [Bool.eq_false_iff]
    intro hcon
    obtain ⟨x, hx, hxk⟩ := List.any_eq_true.mp hcon
    exact hkabs x ((List.dropLast_sublist _).subset hx) (beq_iff_eq.mp hxk)
  have hlen : ¬ (⟨s.lru.items.dropLast, s.lru.capacity⟩ : LRU Key Value).capacity
      < ((k, v) :: s.lru.items.dropLast).length := by
    show ¬ s.lru.capacity < ((k, v) :: s.lru.items.dropLast).length
    simp only [List.length_cons, List.length_dropLast]
    simp only [LRU.size] at hfull
    omega
  have hputd : ((s.lru.erase vk).2).put k v =
      ⟨(k, v) :: s.lru.items.dropLast, s.lru.capacity⟩ := by
    rw [herase]
    simp only [LRU.put, hc2, Bool.false_eq_true, if_false, hlen]
  by_cases hadm : (s.cms.add hash k).estimate hash vk ≤ (s.cms.add hash k).estimate hash k
  · have hstate : s.put hash k v =
        ⟨⟨(k, v) :: s.lru.items.dropLast, s.lru.capacity⟩, s.cms.add hash k⟩ := by
      rw [hput0, if_pos hadm, hputd]
    rw [hstate]
    refine ⟨rfl, ?_, ?_, ?_⟩
    · constructor
      · intro _; exact hadm
      · intro _
        exact List.any_eq_true.mpr ⟨(k, v), List.mem_cons_self _ _, by simp⟩
    · intro _
      exact ⟨rfl, tail_key_not_in_push_dropLast s.lru.items e vk k v hwf he het hkabs⟩
    · intro hc; exact absurd hadm hc
  · have hstate : s.put hash k v = ⟨s.lru, s.cms.add hash k⟩ := by
      rw [hput0, if_neg hadm]
    rw [hstate]
    refine ⟨rfl, ?_, ?_, ?_⟩
    · constructor
      · intro hcon
        rw [show (⟨s.lru, s.cms.add hash k⟩ : TLFU Key Value).lru = s.lru from rfl, hnp] at hcon
        exact absurd hcon Bool.false_ne_true
      · intro h; exact absurd h hadm
    · intro h; exact absurd h hadm
    · intro _; rfl

/-- Witness for C1: capacity-1 core holding key 7, fresh sketch, put of
key 3: `estimate(3) = 1 ≥ 0 = estimate(7)` after the increment, so 3 is
admitted and 7 evicted. -/
theorem C1_witness :
    ((⟨⟨[(7, 70)], 1⟩, mkCMS 2 1⟩ : TLFU Nat Nat).lru.wf ∧
     (⟨⟨[(7, 70)], 1⟩, mkCMS 2 1⟩ : TLFU Nat Nat).lru.contains 3 = false ∧
     (⟨⟨[(7, 70)], 1⟩, mkCMS 2 1⟩ : TLFU Nat Nat).lru.size
       = (⟨⟨[(7, 70)], 1⟩, mkCMS 2 1⟩ : TLFU Nat Nat).lru.capacity ∧
     (⟨⟨[(7, 70)], 1⟩, mkCMS 2 1⟩ : TLFU Nat Nat).lru.peekLruKey = some 7) ∧
    (((⟨⟨[(7, 70)], 1⟩, mkCMS 2 1⟩ : TLFU Nat Nat).put hashId 3 30).cms
       = (mkCMS 2 1).add hashId 3 ∧
     (((⟨⟨[(7, 70)], 1⟩, mkCMS 2 1⟩ : TLFU Nat Nat).put hashId 3 30).lru.contains 3 = true ↔
       ((mkCMS 2 1).add hashId 3).estimate hashId 7
         ≤ ((mkCMS 2 1).add hashId 3).estimate hashId 3) ∧
     (((mkCMS 2 1).add hashId 3).estimate hashId 7
         ≤ ((mkCMS 2 1).add hashId 3).estimate hashId 3 →
       ((⟨⟨[(7, 70)], 1⟩, mkCMS 2 1⟩ : TLFU Nat Nat).put hashId 3 30).lru.items
         = (3, 30) :: ([((7 : Nat), (70 : Nat))]).dropLast ∧
       ((⟨⟨[(7, 70)], 1⟩, mkCMS 2 1⟩ : TLFU Nat Nat).put hashId 3 30).lru.contains 7 = false) ∧
     (¬ ((mkCMS 2 1).add hashId 3).estimate hashId 7
         ≤ ((mkCMS 2 1).add hashId 3).estimate hashId 3 →
       ((⟨⟨[(7, 70)], 1⟩, mkCMS 2 1⟩ : TLFU Nat Nat).put hashId 3 30).lru
         = ⟨[(7, 70)], 1⟩)) :=
  ⟨⟨by unfold LRU.wf; decide, by decide, by decide, by decide⟩,
    C1_tinylfu_admission hashId (⟨⟨[(7, 70)], 1⟩, mkCMS 2 1⟩ : TLFU Nat Nat) 3 30 7
      (by unfold LRU.wf; decide) (by decide) (by decide) (by decide)⟩

/-- C5: `PredictiveShardedCache::get(k)` records exactly one transition
`observe(p, k)` on shard `shard(k)`'s predictor when that shard's
previous key was `p` (none otherwise), sets `prev[shard(k)] = k`, and
returns the underlying sharded lookup of `k` taken before any prefetch
insertion; `put(k, v)` delegates to the underlying put, sets
`prev[shard(k)] = k` and records no transition. -/
theorem C5_predictive_wrapper_bookkeeping [Inhabited Value]
    (hash : Key → Nat) (s : PSC Key Value) (k : Key) (v : Value) (p : Key) :
    ((s.prevs.getD (s.shidx hash k) none = some p →
        (s.get hash k).2.preds = s.preds.set (s.shidx hash k)
          ((s.preds.getD (s.shidx hash k) (mkMarkov Key)).observe p k)) ∧
     (s.prevs.getD (s.shidx hash k) none = none →
        (s.get hash k).2.preds = s.preds) ∧
     (s.get hash k).2.prevs = s.prevs.set (s.shidx hash k) (some k) ∧
     (s.get hash k).1 = (s.base.get hash k).1) ∧
    ((s.put hash k v).base = s.base.put hash k v ∧
     (s.put hash k v).preds = s.preds ∧
     (s.put hash k v).prevs = s.prevs.set (s.shidx hash k) (some k)) := by
  refine ⟨⟨?_, ?_, ?_, ?_⟩, rfl, rfl, rfl⟩
  · intro h
    simp only [PSC.get, h]
  · intro h
    simp only [PSC.get, h]
  · simp only [PSC.get]
  · simp only [PSC.get]

/-- A concrete one-shard predictive cache whose shard 0 last saw key 9,
for the C5 witness. -/
def c5state : PSC Nat Nat :=
  ⟨⟨[mkTLFU Nat Nat 1 1 1]⟩, ⟨1, 1, 4, 1/5, true⟩, [mkMarkov Nat], [some 9]⟩

/-- Witness for C5 at `c5state` with `get(3)`: the previous key on
shard 0 is 9, so exactly `observe(9, 3)` is recorded and
`prev[0] = 3` afterwards; the returned value is the underlying lookup. -/
theorem C5_witness :
    (c5state.prevs.getD (c5state.shidx hashId 3) none = some 9) ∧
    ((c5state.get hashId 3).2.preds = c5state.preds.set (c5state.shidx hashId 3)
      ((c5state.preds.getD (c5state.shidx hashId 3) (mkMarkov Nat)).observe 9 3) ∧
     (c5state.get hashId 3).2.prevs
       = c5state.prevs.set (c5state.shidx hashId 3) (some 3) ∧
     (c5state.get hashId 3).1 = (c5state.base.get hashId 3).1) :=
  ⟨by decide,
   (C5_predictive_wrapper_bookkeeping hashId c5state 3 30 9).1.1 (by decide),
   (C5_predictive_wrapper_bookkeeping hashId c5state 3 30 9).1.2.2.1,
   (C5_predictive_wrapper_bookkeeping hashId c5state 3 30 9).1.2.2.2⟩

end PredCache
